import Mathlib

/-
Verification development for the scrape_trsly repository.

Python strings are modelled as `List Char`; string-returning helpers of the
scraper are translated as executable functions over `List Char`.  Whitespace
handling follows the ASCII whitespace characters recognised by both the
Python `str.strip` method and the regex class `\s` (space, tab, newline,
carriage return, vertical tab, form feed); non-ASCII whitespace is outside
the modelled scope.
-/

namespace ScrapeTrsly

/-- The ASCII whitespace characters of the Python `\s` class and `str.strip`. -/
def pyIsSpace (c : Char) : Bool :=
  c = ' ' ∨ c = '\t' ∨ c = '\n' ∨ c = '\r' ∨ c = Char.ofNat 11 ∨ c = Char.ofNat 12

/-- Python `str.strip()`: drop leading and trailing whitespace. -/
def pyStrip (cs : List Char) : List Char :=
  ((cs.dropWhile pyIsSpace).reverse.dropWhile pyIsSpace).reverse

/-- Python `str.startswith` for a single literal. -/
def startsWithLit (cs p : List Char) : Bool :=
  p.isPrefixOf cs

/-- Python `str.endswith` for a single literal. -/
def endsWithLit (cs p : List Char) : Bool :=
  p.isSuffixOf cs

/-- Python `str.startswith` applied to a tuple of literals. -/
def startsWithAny (cs : List Char) (ps : List (List Char)) : Bool :=
  ps.any (fun p => startsWithLit cs p)

/--
Left-to-right scan underlying `re.sub` for the deterministic patterns used by
the scraper: at each position the matcher either consumes a non-empty chunk
and yields a replacement together with the remaining suffix, or the scan moves
one character forward.  The fuel argument is instantiated with the length of
the scanned string; every matcher below consumes at least one character, so
the fuel never runs out.
-/
def scanRep (m : List Char → Option (List Char × List Char)) : Nat → List Char → List Char
  | 0, cs => cs
  | _ + 1, [] => []
  | fuel + 1, c :: cs =>
    match m (c :: cs) with
    | some (repl, rest) => repl ++ scanRep m fuel rest
    | none => c :: scanRep m fuel cs

/-- Match a literal at the head of the string, returning the remainder. -/
def litMatchHead : List Char → List Char → Option (List Char)
  | [], cs => some cs
  | _ :: _, [] => none
  | p :: ps, c :: cs => if c = p then litMatchHead ps cs else none

/--
Matcher for the pattern removing a whole-document wrapper tag, as in
`re.sub(r'</?body[^>]*>', '', content)`: a `<`, an optional `/`, the tag
name, any run of characters other than `>`, then `>`.
-/
def tagMatcher (name : List Char) (cs : List Char) : Option (List Char × List Char) :=
  match cs with
  | '<' :: cs1 =>
    let cs2 := match cs1 with
      | '/' :: t => t
      | t => t
    match litMatchHead name cs2 with
    | none => none
    | some rest =>
      match rest.dropWhile (fun c => c ≠ '>') with
      | '>' :: tail => some ([], tail)
      | _ => none
  | _ => none

/-- Matcher for `re.sub(r'<br\s*/?>', '<br>', content)`. -/
def brMatcher (cs : List Char) : Option (List Char × List Char) :=
  match litMatchHead "<br".data cs with
  | none => none
  | some rest =>
    match rest.dropWhile pyIsSpace with
    | '/' :: '>' :: tail => some ("<br>".data, tail)
    | '>' :: tail => some ("<br>".data, tail)
    | _ => none

/-- Matcher for `re.sub(r'<br>\s*<br>', '<br><br>', content)`. -/
def brPairMatcher (cs : List Char) : Option (List Char × List Char) :=
  match litMatchHead "<br>".data cs with
  | none => none
  | some rest =>
    match litMatchHead "<br>".data (rest.dropWhile pyIsSpace) with
    | none => none
    | some tail => some ("<br><br>".data, tail)

/-- Python `content.split('\n')`. -/
def splitLines : List Char → List (List Char)
  | [] => [[]]
  | c :: rest =>
    if c = '\n' then [] :: splitLines rest
    else
      match splitLines rest with
      | l :: ls => (c :: l) :: ls
      | [] => [[c]]

/-- Python `'\n'.join(lines)`. -/
def joinLines : List (List Char) → List Char
  | [] => []
  | [l] => l
  | l :: ls => l ++ '\n' :: joinLines ls

/--
Matcher for `re.sub(r'\n\s*\n\s*\n+', '\n\n', result)`.  With greedy
quantifiers the regex matches, at a position holding a newline, up to the
last newline of the whitespace run starting there, provided that run holds
at least three newlines; the run is replaced by a pair of newlines.
-/
def collapse3Matcher (cs : List Char) : Option (List Char × List Char) :=
  match cs with
  | c :: _ =>
    if c = '\n' then
      let run := cs.takeWhile pyIsSpace
      if 3 ≤ run.count '\n' then
        let trailing := (run.reverse.takeWhile (fun c2 => c2 ≠ '\n')).length
        some (['\n', '\n'], cs.drop (run.length - trailing))
      else none
    else none
  | [] => none

/-- The line starters that receive a trailing blank line (with the image
starter excluded again by the inner test) in `_post_process_content`. -/
def blankAfterSet : List (List Char) :=
  ["<img ".data, "<figcaption>".data, "<h2>".data, "<span></span>".data, "<iframe".data]

/-- The look-ahead starters tested on the raw next line for a bare text line. -/
def lookaheadSet : List (List Char) :=
  ["<img ".data, "<span></span>".data, "<h2>".data, "<iframe".data]

/-- The first branch condition of the line loop in `_post_process_content`. -/
def outerCond (l : List Char) : Bool :=
  startsWithAny l blankAfterSet || (startsWithLit l "<p>".data && endsWithLit l "</p>".data)

/-- The `elif` condition of the line loop: a bare text line. -/
def plainTextCond (l : List Char) : Bool :=
  !(startsWithLit l "<".data) && !(endsWithLit l ">".data)

/-- The blank lines appended after one stripped non-empty line, given the raw
lines that follow it (the `elif` branch looks at the raw next line). -/
def blankInsertion (l : List Char) (rest : List (List Char)) : List (List Char) :=
  if outerCond l then
    if !(startsWithLit l "<img ".data) then [[]] else []
  else if plainTextCond l then
    match rest with
    | [] => []
    | nxt :: _ => if startsWithAny (pyStrip nxt) lookaheadSet then [[]] else []
  else []

/-- The line loop of `_post_process_content`: strip each line, drop blank
lines, and append a blank line after selected block lines. -/
def processLines : List (List Char) → List (List Char)
  | [] => []
  | raw :: rest =>
    let l := pyStrip raw
    if l = [] then processLines rest
    else l :: (blankInsertion l rest ++ processLines rest)

/-- The caption-like starters that always receive a trailing blank line in
the line loop: the blank-after set without the image starter, plus the
paragraph form. -/
def capCond (l : List Char) : Bool :=
  startsWithAny l ["<figcaption>".data, "<h2>".data, "<span></span>".data, "<iframe".data]
    || (startsWithLit l "<p>".data && endsWithLit l "</p>".data)

/-- Drop a trailing blank entry, as the final strip does at the line level. -/
def dropTrailingBlank (L : List (List Char)) : List (List Char) :=
  if L.getLast? = some [] then L.dropLast else L

/-- `_post_process_content` from `kevin/scrape copy.py`: wrapper-tag removal,
`<br>` normalisation, the line loop, blank-run collapsing, and a final strip. -/
def postProcessContent (content : List Char) : List Char :=
  let c1 := scanRep (tagMatcher "body".data) content.length content
  let c2 := scanRep (tagMatcher "html".data) c1.length c1
  let c3 := scanRep brMatcher c2.length c2
  let c4 := scanRep brPairMatcher c3.length c3
  let joined := joinLines (processLines (splitLines c4))
  pyStrip (scanRep collapse3Matcher joined.length joined)

/-! Figure restructuring in `_extract_raw_content` (claim C1).  A figure is
modelled by its (first) contained image, if any, and its caption tags in
document order; a caption tag carries its attributes and inline contents. -/

structure FigureImage where
  src : String
  alt : String
deriving DecidableEq

structure CaptionTag where
  attrs : List (String × String)
  contents : List String
deriving DecidableEq

structure FigureTag where
  img : Option FigureImage
  captions : List CaptionTag
deriving DecidableEq

inductive ContentNode
  | image (src alt : String)
  | caption (contents : List String)
deriving DecidableEq

/-- The body of the `for i, figure in enumerate(figures)` loop: a figure
without an image is decomposed; the figure at loop index 0 is replaced by a
bare image; any other figure is replaced by an image followed by caption tags
rebuilt from the caption contents only (attributes dropped). -/
def processFigure (i : Nat) (fig : FigureTag) : List ContentNode :=
  match fig.img with
  | none => []
  | some im =>
    if i = 0 then [ContentNode.image im.src im.alt]
    else ContentNode.image im.src im.alt ::
      fig.captions.map (fun fc => ContentNode.caption fc.contents)

def restructureFiguresFrom (i : Nat) : List FigureTag → List ContentNode
  | [] => []
  | fig :: rest => processFigure i fig ++ restructureFiguresFrom (i + 1) rest

/-- The figure pass of `_extract_raw_content`: the loop index enumerates all
figures in document order, whether or not they contain an image. -/
def restructureFigures (figs : List FigureTag) : List ContentNode :=
  restructureFiguresFrom 0 figs

/-- Stated from the words of claim C1, for comparison with the code: here the
cover role goes to index 0 among figures that do contain an image. -/
def restructureFiguresClaimFrom (imgIdx : Nat) : List FigureTag → List ContentNode
  | [] => []
  | fig :: rest =>
    match fig.img with
    | none => restructureFiguresClaimFrom imgIdx rest
    | some im =>
      (if imgIdx = 0 then [ContentNode.image im.src im.alt]
       else ContentNode.image im.src im.alt ::
         fig.captions.map (fun fc => ContentNode.caption fc.contents))
      ++ restructureFiguresClaimFrom (imgIdx + 1) rest

def restructureFiguresClaim (figs : List FigureTag) : List ContentNode :=
  restructureFiguresClaimFrom 0 figs

/-- The replacement applied to every figure after the first position. -/
def subsequentFigures : List FigureTag → List ContentNode
  | [] => []
  | fig :: rest =>
    (match fig.img with
     | none => []
     | some im => ContentNode.image im.src im.alt ::
         fig.captions.map (fun fc => ContentNode.caption fc.contents))
    ++ subsequentFigures rest

/-- The amended reading of claim C1: the cover simplification applies to the
figure at overall index 0 (first in document order among all figures); every
later image-bearing figure keeps its captions. -/
def restructureFiguresAmended : List FigureTag → List ContentNode
  | [] => []
  | fig :: rest =>
    (match fig.img with
     | none => []
     | some im => [ContentNode.image im.src im.alt])
    ++ subsequentFigures rest

/-! Image URL rewriting (claim C4): `compress_image_url` and the image loop
of `_extract_raw_content`.  The single HTTP attempt is an oracle from the
requested URL to an outcome; a `failure` covers both a request exception and
a non-success status raised by `raise_for_status`. -/

inductive HttpOutcome
  | failure
  | success (bodyText : List Char)
deriving DecidableEq

/-- `compress_image_url`: on success return the stripped body when it starts
with `http`, otherwise fall back to the original URL; on failure fall back. -/
def compress_image_url (respond : List Char → HttpOutcome) (image_url : List Char) : List Char :=
  match respond image_url with
  | HttpOutcome.failure => image_url
  | HttpOutcome.success bodyText =>
    let compressed := pyStrip bodyText
    if startsWithLit compressed "http".data then compressed else image_url

/-- An `<img>` tag inside the content body: its optional `src` attribute
(`none` when absent) and its `alt` text. -/
structure ImgTag where
  src : Option (List Char)
  alt : List Char
deriving DecidableEq

/-- One iteration of the image loop of `_extract_raw_content`: an image with
a truthy `src` has it replaced by `compress_image_url(src)`; an image with a
missing or empty `src` is left alone. -/
def compressOneImage (respond : List Char → HttpOutcome) (im : ImgTag) : ImgTag :=
  match im.src with
  | none => im
  | some s => if s = [] then im else { im with src := some (compress_image_url respond s) }

/-- The image loop of `_extract_raw_content` over the content body. -/
def compressFragmentImages (respond : List Char → HttpOutcome) (imgs : List ImgTag) : List ImgTag :=
  imgs.map (compressOneImage respond)

/-! The deduplicating coordinator `paralel_scrape_check_duplicate.py`
(claims C2 and C6). -/

/-- The candidate filter of `main`:
`urls_to_scrape = [url for url in all_urls if url not in existing_urls_set]`. -/
def urls_to_scrape (all_urls : List String) (existing_urls_set : List String) : List String :=
  all_urls.filter (fun url => decide (¬ url ∈ existing_urls_set))

/-- Externally visible operations of one coordinator run. -/
inductive CoordEvent
  | createTable
  | bulkSelectUrls
  | existenceCheck (url : String)
  | submitTask (url : String)
  | saveHtmlFile (url : String)
  | upsertArticle (url : String)
deriving DecidableEq

/-- Store and file operations performed by `process_single_url` for one URL:
one HTML file write and one upsert; no existence check. -/
def taskEvents (url : String) : List CoordEvent :=
  [CoordEvent.saveHtmlFile url, CoordEvent.upsertArticle url]

/-- The event trace of `main`: `init_db` (table creation), then the single
bulk `get_existing_urls` query, then any interleaving `sched` of the task
submissions and of the submitted tasks own operations. -/
def coordinatorTrace (sched : List CoordEvent) : List CoordEvent :=
  CoordEvent.createTable :: CoordEvent.bulkSelectUrls :: sched

/-! The plain parallel coordinator `paralel_scrape.py` (claim C7). -/

/-- How the work for one URL turns out: a scrape result with the status
string returned by the database save, a scrape returning no content, or an
exception raised anywhere while processing that URL. -/
inductive WorkerOutcome
  | scraped (dbStatus : String)
  | noContent
  | raised (msg : String)
deriving DecidableEq

/-- `process_single_url` of `paralel_scrape.py`: the whole body is wrapped in
`try/except Exception`, so an exception becomes a `Critical Error` status
returned with the URL instead of propagating. -/
def process_single_url (outcomeOf : String → WorkerOutcome) (url : String) : String × String :=
  match outcomeOf url with
  | WorkerOutcome.scraped dbStatus => (url, dbStatus)
  | WorkerOutcome.noContent => (url, "Failed to scrape content")
  | WorkerOutcome.raised msg => (url, "Critical Error: " ++ msg)

/-- The `as_completed` collection loop of `main`: one `(url, status)` pair is
recorded per completed task, in completion order. -/
def collectResults (outcomeOf : String → WorkerOutcome) (completionOrder : List String) :
    List (String × String) :=
  completionOrder.map (fun url => process_single_url outcomeOf url)

/-! The feed exporter `pre_proses_data/xtml_modifate.py` (claims C8 to C10). -/

/-- The fields of one article object read by `generate_article_item`. -/
structure ArticleRecord where
  url : String
  title : String
  meta_description : String
  meta_keywords : String
  meta_tag : String
  date_published : String
  date_modified : String
  content : String
deriving DecidableEq

/-- The parts whose concatenation `convert_json_to_wordpress_xml` writes. -/
inductive XmlPart
  | header
  | channelInfo
  | authorBlock
  | categoryBlock
  | generatorBlock
  | item (article : ArticleRecord) (post_id : Nat)
  | footer
deriving DecidableEq

/-- The item loop: `for index, article in enumerate(articles):
post_id = 40670 + index`. -/
def articleItemsFrom (index : Nat) : List ArticleRecord → List XmlPart
  | [] => []
  | article :: rest => XmlPart.item article (40670 + index) :: articleItemsFrom (index + 1) rest

/-- `convert_json_to_wordpress_xml`, at the granularity of emitted parts. -/
def convert_json_to_wordpress_xml (articles : List ArticleRecord) : List XmlPart :=
  XmlPart.header :: XmlPart.channelInfo :: XmlPart.authorBlock :: XmlPart.categoryBlock ::
    XmlPart.generatorBlock :: (articleItemsFrom 0 articles ++ [XmlPart.footer])

/-- Select the article items among the emitted parts. -/
def itemPart : XmlPart → Option (ArticleRecord × Nat)
  | XmlPart.item a pid => some (a, pid)
  | _ => none

/-! `truncate_text_intelligently` (claim C9). -/

def sentenceEnders : List Char := ['.', '!', '?']

/-- `max(text.rfind('.'), text.rfind('!'), text.rfind('?'))`, with `none`
for the `-1` of a missing terminator. -/
def lastTerminatorPos : List Char → Option Nat
  | [] => none
  | c :: rest =>
    match lastTerminatorPos rest with
    | some i => some (i + 1)
    | none => if c ∈ sentenceEnders then some 0 else none

/-- The `while len(truncated_text) > 250` loop, with explicit fuel: `none`
means the loop is still running after `fuel` iterations. -/
def truncateLoop : Nat → List Char → Option (List Char)
  | 0, _ => none
  | fuel + 1, text =>
    if text.length ≤ 250 then some text
    else
      match lastTerminatorPos text with
      | none => some text
      | some p => truncateLoop fuel (pyStrip (text.take (p + 1)))

/-- `truncate_text_intelligently` with explicit loop fuel: `none` means the
call has not returned after `fuel` loop iterations. -/
def truncate_text_intelligently (fuel : Nat) (text : List Char) : Option (List Char) :=
  if text.length ≤ 250 then some text
  else
    (truncateLoop fuel text).map (fun truncated =>
      if 250 < truncated.length then text.take 250 else truncated)

/-! `remove_trstdly_references` (claim C10). -/

def trstdlyPat : List Char := "trstdly.com".data

/-- Case-insensitive match of a lowercase literal at the head of the string,
as under `re.IGNORECASE`. -/
def ciMatchHead : List Char → List Char → Option (List Char)
  | [], cs => some cs
  | _ :: _, [] => none
  | p :: ps, c :: cs => if c.toLower = p then ciMatchHead ps cs else none

/-- Matcher for `re.sub(r'trstdly\.com', '', content, flags=re.IGNORECASE)`. -/
def scrubMatcher (cs : List Char) : Option (List Char × List Char) :=
  (ciMatchHead trstdlyPat cs).map (fun rest => (([] : List Char), rest))

/-- Shared tail of the two copyright patterns: exactly four digits, then
`\s*`, then the case-insensitive site name. -/
def fourDigitsThenPat : List Char → Option (List Char)
  | d1 :: d2 :: d3 :: d4 :: rest =>
    if d1.isDigit && d2.isDigit && d3.isDigit && d4.isDigit then
      ciMatchHead trstdlyPat (rest.dropWhile pyIsSpace)
    else none
  | _ => none

/-- Matcher for `re.sub(r'\s*@\s*\d{4}\s*trstdly\.com', '', content, flags=re.IGNORECASE)`. -/
def atMatcher (cs : List Char) : Option (List Char × List Char) :=
  match cs.dropWhile pyIsSpace with
  | '@' :: r2 => (fourDigitsThenPat (r2.dropWhile pyIsSpace)).map (fun rest => (([] : List Char), rest))
  | _ => none

/-- Matcher for the second copyright pattern; the source file spells the
copyright mark as the two characters before the `\s*\d{4}` part. -/
def copyrightMatcher (cs : List Char) : Option (List Char × List Char) :=
  match cs.dropWhile pyIsSpace with
  | '¬' :: '©' :: r2 => (fourDigitsThenPat (r2.dropWhile pyIsSpace)).map (fun rest => (([] : List Char), rest))
  | _ => none

/-- Matcher for `re.sub(r'\s+', ' ', content)`. -/
def wsMatcher (cs : List Char) : Option (List Char × List Char) :=
  match cs with
  | c :: _ => if pyIsSpace c then some ([' '], cs.dropWhile pyIsSpace) else none
  | [] => none

def collapseWs (cs : List Char) : List Char :=
  scanRep wsMatcher cs.length cs

def scrubPass (cs : List Char) : List Char :=
  scanRep scrubMatcher cs.length cs

/-- `remove_trstdly_references`: the two copyright patterns, the bare site
name, whitespace collapsing, and a final strip. -/
def remove_trstdly_references (content : List Char) : List Char :=
  if content = [] then []
  else
    let c1 := scanRep atMatcher content.length content
    let c2 := scanRep copyrightMatcher c1.length c1
    let c3 := scrubPass c2
    pyStrip (collapseWs c3)

/-- Whether the site name occurs case-insensitively anywhere in the string. -/
def ciOccurs : List Char → Bool
  | [] => false
  | c :: rest => (ciMatchHead trstdlyPat (c :: rest)).isSome || ciOccurs rest

/-- Adjacent characters are never both whitespace. -/
def noWsPair (a b : Char) : Prop :=
  ¬ (pyIsSpace a = true ∧ pyIsSpace b = true)

/-- The lines of the serialized normalizer output. -/
def postLines (content : List Char) : List (List Char) :=
  splitLines (postProcessContent content)

/-- The relation between adjacent lines of the post-processed output: a
caption-like line is followed by a blank line; a blank line, an image line,
and a list-item line are followed by a non-blank line. -/
def lineRel (a b : List Char) : Prop :=
  (capCond a = true → b = []) ∧
  ((a = [] ∨ startsWithLit a "<img ".data = true ∨ startsWithLit a "<li".data = true) →
    b ≠ [])

/-! ### Theorems -/

theorem restructureFiguresFrom_pos (i : Nat) (figs : List FigureTag) :
    restructureFiguresFrom (i + 1) figs = subsequentFigures figs := by
  induction figs generalizing i with
  | nil => rfl
  | cons fig rest ih =>
    simp only [restructureFiguresFrom, subsequentFigures, processFigure, ih]
    cases fig.img with
    | none => simp
    | some im => simp

/--
Claim C1, counterexample: when the first figure in document order contains no
image and the second contains an image with a caption, the code keeps the
caption of the second figure, while the claim (cover role at index 0 among
image-bearing figures) discards it.
-/
theorem c1_counterexample :
    restructureFigures
        [{ img := none, captions := [{ attrs := [], contents := ["stray"] }] },
         { img := some { src := "s", alt := "a" },
           captions := [{ attrs := [("class", "c")], contents := ["cap"] }] }]
      ≠
      restructureFiguresClaim
        [{ img := none, captions := [{ attrs := [], contents := ["stray"] }] },
         { img := some { src := "s", alt := "a" },
           captions := [{ attrs := [("class", "c")], contents := ["cap"] }] }] := by
  decide

/--
Claim C1, amended: figure restructuring processes figures in document order;
a figure with no image is discarded with its captions; the figure at overall
index 0 among all figures is, when it holds an image, replaced by a bare
image node with its captions discarded; every figure after the first overall
position is replaced in place by an image node followed by its caption nodes
with attributes stripped, preserving relative order.
-/
theorem c1_figure_restructuring (figs : List FigureTag) :
    restructureFigures figs = restructureFiguresAmended figs := by
  cases figs with
  | nil => rfl
  | cons fig rest =>
    simp only [restructureFigures, restructureFiguresFrom, restructureFiguresAmended,
      restructureFiguresFrom_pos, processFigure]
    cases fig.img <;> simp

/--
Claim C2, counterexample: a URL repeated in the input list and absent from
the prefetched set appears twice in the filtered candidate list, so the
filtered list is not duplicate-free for every input.
-/
theorem c2_counterexample :
    urls_to_scrape ["a", "a"] [] = ["a", "a"] ∧ ¬ (urls_to_scrape ["a", "a"] []).Nodup := by
  decide

/--
Claim C2, amended: the filtered candidate list keeps exactly the input URLs
that are not in the prefetched existing set, in input order (it is a sublist
of the input); it is duplicate-free whenever the input list is, and it keeps
the input multiplicity of every URL outside the existing set.
-/
theorem c2_filter_characterisation (all_urls existing_urls_set : List String) :
    (∀ u, u ∈ urls_to_scrape all_urls existing_urls_set ↔
      u ∈ all_urls ∧ u ∉ existing_urls_set) ∧
    (urls_to_scrape all_urls existing_urls_set).Sublist all_urls ∧
    (all_urls.Nodup → (urls_to_scrape all_urls existing_urls_set).Nodup) ∧
    (∀ u, u ∉ existing_urls_set →
      (urls_to_scrape all_urls existing_urls_set).count u = all_urls.count u) := by
  refine ⟨fun u => ?_, List.filter_sublist _, fun h => h.filter _, fun u hu => ?_⟩
  · simp [urls_to_scrape, List.mem_filter]
  · induction all_urls with
    | nil => rfl
    | cons a rest ih =>
      by_cases ha : a ∈ existing_urls_set
      · have hne : a ≠ u := fun h => hu (h ▸ ha)
        simp [urls_to_scrape, List.filter_cons, ha, List.count_cons, hne,
          urls_to_scrape] at ih ⊢
        simpa [urls_to_scrape] using ih
      · simp only [urls_to_scrape, List.filter_cons, decide_eq_true_eq, ha,
          not_false_iff, if_pos, List.count_cons] at ih ⊢
        simp [urls_to_scrape] at ih
        simp [ih]

/-- Witness for the C2 amended theorem at a concrete input. -/
theorem c2_filter_characterisation_witness :
    (urls_to_scrape ["b", "a"] ["a"]).Nodup ∧
      (urls_to_scrape ["b", "a"] ["a"]).count "b" = (["b", "a"] : List String).count "b" :=
  ⟨(c2_filter_characterisation ["b", "a"] ["a"]).2.2.1 (by decide),
   (c2_filter_characterisation ["b", "a"] ["a"]).2.2.2 "b" (by decide)⟩

theorem articleItemsFrom_filterMap_get? (k : Nat) (articles : List ArticleRecord) (i : Nat) :
    ((articleItemsFrom k articles).filterMap itemPart).get? i
      = (articles.get? i).map (fun a => (a, 40670 + k + i)) := by
  induction articles generalizing k i with
  | nil => simp [articleItemsFrom]
  | cons a rest ih =>
    cases i with
    | zero => simp [articleItemsFrom, itemPart]
    | succ n =>
      have harith : (fun x : ArticleRecord => (x, 40670 + (k + 1) + n))
          = (fun x : ArticleRecord => (x, 40670 + k + (n + 1))) := by
        funext x
        simp only [Prod.mk.injEq, true_and]
        omega
      simp only [articleItemsFrom, List.filterMap_cons, itemPart, List.get?_cons_succ]
      rw [ih (k + 1) n, harith]

theorem articleItemsFrom_filterMap_length (k : Nat) (articles : List ArticleRecord) :
    ((articleItemsFrom k articles).filterMap itemPart).length = articles.length := by
  induction articles generalizing k with
  | nil => rfl
  | cons a rest ih => simp [articleItemsFrom, List.filterMap_cons, itemPart, ih]

/--
Claim C8: the feed exporter emits exactly one item per input record (the item
parts of the output are in bijection with the input list), in input order,
and the item at position i carries post identifier 40670 + i together with
the record at position i.
-/
theorem c8_feed_items (articles : List ArticleRecord) (i : Nat) :
    ((convert_json_to_wordpress_xml articles).filterMap itemPart).length = articles.length ∧
    ((convert_json_to_wordpress_xml articles).filterMap itemPart).get? i
      = (articles.get? i).map (fun a => (a, 40670 + i)) := by
  have hfm : (convert_json_to_wordpress_xml articles).filterMap itemPart
      = (articleItemsFrom 0 articles).filterMap itemPart := by
    simp [convert_json_to_wordpress_xml, List.filterMap_cons, List.filterMap_append, itemPart]
  rw [hfm]
  exact ⟨articleItemsFrom_filterMap_length 0 articles,
    articleItemsFrom_filterMap_get? 0 articles i⟩

theorem dropWhile_eq_self_of_head (p : Char → Bool) (l : List Char)
    (h : ∀ c, l.head? = some c → p c = false) : l.dropWhile p = l := by
  cases l with
  | nil => rfl
  | cons c t => simp [List.dropWhile_cons, h c rfl]

theorem pyStrip_eq_self_of_no_ws (l : List Char) (h : ∀ c ∈ l, pyIsSpace c = false) :
    pyStrip l = l := by
  unfold pyStrip
  rw [dropWhile_eq_self_of_head _ l (fun c hc => h c (List.mem_of_mem_head? hc))]
  rw [dropWhile_eq_self_of_head _ l.reverse
    (fun c hc => h c (List.mem_reverse.mp (List.mem_of_mem_head? hc)))]
  exact List.reverse_reverse l

/--
Claim C3: `_post_process_content` is not idempotent.  On the content
consisting of a bare text line followed by a heading line, the first pass
inserts a blank line between them, and the second pass removes it again,
because the look-ahead of the line loop reads the raw next line, which is
now the inserted blank line.  The output therefore differs byte-wise from
the once-processed input, contradicting the claimed idempotence.
-/
theorem c3_post_process_not_idempotent :
    postProcessContent (postProcessContent "text\n<h2>hello</h2>".data)
      ≠ postProcessContent "text\n<h2>hello</h2>".data := by
  decide

/--
Claim C4: `compress_image_url` either rewrites an image URL (exactly when
the single HTTP attempt succeeds and the stripped response body starts with
`http`) or returns the original URL unchanged; the image loop rewrites each
image independently, preserves the number of images and their `alt` texts,
and every image that carried a non-empty `src` still carries a non-empty
`src` afterwards, whatever the per-image outcomes are.
-/
theorem c4_image_rewrite (respond : List Char → HttpOutcome) (imgs : List ImgTag)
    (i : Nat) (hi : i < imgs.length) :
    (compressFragmentImages respond imgs).length = imgs.length ∧
    ((compressFragmentImages respond imgs).getD i ⟨none, []⟩).alt
      = (imgs.getD i ⟨none, []⟩).alt ∧
    (∀ s, (imgs.getD i ⟨none, []⟩).src = some s → s ≠ [] →
      ((respond s = HttpOutcome.failure →
          ((compressFragmentImages respond imgs).getD i ⟨none, []⟩).src = some s) ∧
       (∀ body, respond s = HttpOutcome.success body →
          (startsWithLit (pyStrip body) "http".data = true →
            ((compressFragmentImages respond imgs).getD i ⟨none, []⟩).src
              = some (pyStrip body)) ∧
          (startsWithLit (pyStrip body) "http".data = false →
            ((compressFragmentImages respond imgs).getD i ⟨none, []⟩).src = some s)) ∧
       (∃ s2, ((compressFragmentImages respond imgs).getD i ⟨none, []⟩).src = some s2 ∧
          s2 ≠ []))) := by
  have hlen : (compressFragmentImages respond imgs).length = imgs.length :=
    List.length_map imgs (compressOneImage respond)
  have hi2 : i < (compressFragmentImages respond imgs).length := by omega
  have hget : (compressFragmentImages respond imgs).getD i ⟨none, []⟩
      = compressOneImage respond (imgs.getD i ⟨none, []⟩) := by
    rw [List.getD_eq_get _ _ hi2, List.getD_eq_get _ _ hi]
    simp [compressFragmentImages]
  refine ⟨hlen, ?_⟩
  rw [hget]
  generalize imgs.getD i ({ src := none, alt := [] } : ImgTag) = im
  constructor
  · rcases h : im.src with _ | s
    · simp [compressOneImage, h]
    · by_cases hs : s = [] <;> simp [compressOneImage, h, hs]
  · intro s hs hne
    have hone : compressOneImage respond im
        = { im with src := some (compress_image_url respond s) } := by
      simp [compressOneImage, hs, hne]
    rw [hone]
    refine ⟨?_, ?_, ?_⟩
    · intro hfail
      simp [compress_image_url, hfail]
    · intro body hsucc
      constructor <;> intro hpre <;> simp [compress_image_url, hsucc, hpre]
    · rcases hresp : respond s with _ | body
      · exact ⟨s, by simp [compress_image_url, hresp], hne⟩
      · by_cases hpre : startsWithLit (pyStrip body) "http".data = true
        · refine ⟨pyStrip body, by simp [compress_image_url, hresp, hpre], ?_⟩
          intro hnil
          rw [hnil] at hpre
          simp [startsWithLit, List.isPrefixOf] at hpre
        · exact ⟨s, by simp [compress_image_url, hresp, hpre], hne⟩

/-- Witness for the C4 theorem at a concrete input. -/
theorem c4_image_rewrite_witness :
    (compressFragmentImages (fun _ => HttpOutcome.failure)
      [{ src := some ['a'], alt := [] }]).length = 1 :=
  (c4_image_rewrite (fun _ => HttpOutcome.failure) [{ src := some ['a'], alt := [] }]
    0 (by decide)).1

/--
Claim C6: in the deduplicating coordinator, the set of already-persisted
URLs is retrieved by exactly one bulk query, placed before every task
submission in the trace, and no submitted task ever performs a per-URL
existence check, whatever the interleaving of submissions and task
operations is.
-/
theorem c6_bulk_prefetch (all_urls existing_urls_set : List String) (sched : List CoordEvent)
    (hsched : sched.Perm ((urls_to_scrape all_urls existing_urls_set).map CoordEvent.submitTask
      ++ (urls_to_scrape all_urls existing_urls_set).flatMap taskEvents)) :
    ((coordinatorTrace sched).count CoordEvent.bulkSelectUrls = 1) ∧
    (∀ u, CoordEvent.existenceCheck u ∉ coordinatorTrace sched) ∧
    (∀ i u, (coordinatorTrace sched).get? i = some (CoordEvent.submitTask u) →
      (coordinatorTrace sched).get? 1 = some CoordEvent.bulkSelectUrls ∧ 1 < i) := by
  refine ⟨?_, ?_, ?_⟩
  · have hzero : sched.count CoordEvent.bulkSelectUrls = 0 := by
      rw [hsched.count_eq]
      rw [List.count_eq_zero]
      intro hmem
      rcases List.mem_append.mp hmem with h | h
      · rcases List.mem_map.mp h with ⟨u, _, heq⟩
        exact CoordEvent.noConfusion heq
      · rcases List.mem_flatMap.mp h with ⟨u, _, hmem2⟩
        simp [taskEvents] at hmem2
    simp [coordinatorTrace, List.count_cons, hzero]
  · intro u hmem
    simp only [coordinatorTrace, List.mem_cons] at hmem
    rcases hmem with h | h | hmem
    · exact CoordEvent.noConfusion h
    · exact CoordEvent.noConfusion h
    have := hsched.mem_iff.mp hmem
    rcases List.mem_append.mp this with h | h
    · rcases List.mem_map.mp h with ⟨w, _, heq⟩
      exact CoordEvent.noConfusion heq
    · rcases List.mem_flatMap.mp h with ⟨w, _, hmem2⟩
      simp [taskEvents] at hmem2
  · intro i u hget
    match i with
    | 0 => simp [coordinatorTrace] at hget
    | 1 => simp [coordinatorTrace] at hget
    | n + 2 => exact ⟨rfl, by omega⟩

/-- Witness for the C6 theorem at a concrete input. -/
theorem c6_bulk_prefetch_witness :
    (coordinatorTrace ((urls_to_scrape ["u"] []).map CoordEvent.submitTask
      ++ (urls_to_scrape ["u"] []).flatMap taskEvents)).count CoordEvent.bulkSelectUrls = 1 :=
  (c6_bulk_prefetch ["u"] [] _ (List.Perm.refl _)).1

theorem process_single_url_fst (outcomeOf : String → WorkerOutcome) (url : String) :
    (process_single_url outcomeOf url).1 = url := by
  rcases h : outcomeOf url with s | _ | msg <;> simp [process_single_url, h]

theorem mem_collectResults (outcomeOf : String → WorkerOutcome) (order : List String)
    (v : String) (status : String) :
    (v, status) ∈ collectResults outcomeOf order ↔
      v ∈ order ∧ process_single_url outcomeOf v = (v, status) := by
  constructor
  · intro hmem
    rcases List.mem_map.mp hmem with ⟨w, hw, heq⟩
    have hwv : w = v := by
      have := congrArg Prod.fst heq
      simpa [process_single_url_fst] using this
    subst hwv
    exact ⟨hw, heq⟩
  · intro ⟨hv, heq⟩
    exact heq ▸ List.mem_map_of_mem _ hv

/--
Claim C7: an exception raised while processing one URL is caught inside that
worker and turned into a failure status carrying the description, recorded
against that URL; every submitted URL still yields an outcome, and the
outcomes of the other URLs do not depend on the failing one, whatever the
completion order is.
-/
theorem c7_task_isolation (outcomeOf : String → WorkerOutcome) (all_urls order : List String)
    (horder : order.Perm all_urls) (u : String) (hu : u ∈ all_urls) (msg : String)
    (hraised : outcomeOf u = WorkerOutcome.raised msg) :
    ((u, "Critical Error: " ++ msg) ∈ collectResults outcomeOf order) ∧
    (∀ v, v ∈ all_urls → ∃ status, (v, status) ∈ collectResults outcomeOf order) ∧
    (∀ outcomeOf2 : String → WorkerOutcome, (∀ v, v ≠ u → outcomeOf2 v = outcomeOf v) →
      ∀ v status, v ≠ u →
        ((v, status) ∈ collectResults outcomeOf order ↔
          (v, status) ∈ collectResults outcomeOf2 order)) := by
  refine ⟨?_, ?_, ?_⟩
  · rw [mem_collectResults]
    exact ⟨horder.mem_iff.mpr hu, by simp [process_single_url, hraised]⟩
  · intro v hv
    refine ⟨(process_single_url outcomeOf v).2, ?_⟩
    rw [mem_collectResults]
    refine ⟨horder.mem_iff.mpr hv, ?_⟩
    rcases h : outcomeOf v with s | _ | m <;> simp [process_single_url, h]
  · intro outcomeOf2 hagree v status hvne
    rw [mem_collectResults, mem_collectResults]
    have heq : process_single_url outcomeOf2 v = process_single_url outcomeOf v := by
      simp [process_single_url, hagree v hvne]
    rw [heq]

/-- Witness for the C7 theorem at a concrete input. -/
theorem c7_task_isolation_witness :
    ("u", "Critical Error: " ++ "boom") ∈
      collectResults (fun _ => WorkerOutcome.raised "boom") ["u"] :=
  (c7_task_isolation (fun _ => WorkerOutcome.raised "boom") ["u"] ["u"]
    (List.Perm.refl _) "u" (List.mem_singleton.mpr rfl) "boom" rfl).1

theorem lastTerminatorPos_replicate_dot (n : Nat) :
    lastTerminatorPos (List.replicate n 'a' ++ ['.']) = some n := by
  induction n with
  | zero => decide
  | succ k ih =>
    rw [List.replicate_succ, List.cons_append]
    rw [lastTerminatorPos, ih]

/--
Claim C9: `truncate_text_intelligently` does not terminate on every input.
On a string of 250 letters followed by a period, the final period is the
last sentence terminator, so each loop iteration slices and strips the text
back to itself while its length stays above 250, and the `while` loop never
exits: for every iteration budget the loop is still running.
-/
theorem c9_truncate_nonterminating (fuel : Nat) :
    truncate_text_intelligently fuel (List.replicate 250 'a' ++ ['.']) = none := by
  have hlen : (List.replicate 250 'a' ++ ['.']).length = 251 := by
    rw [List.length_append, List.length_replicate]
    rfl
  have hnw : ∀ c ∈ List.replicate 250 'a' ++ ['.'], pyIsSpace c = false := by
    intro c hc
    rcases List.mem_append.mp hc with h | h
    · rw [List.eq_of_mem_replicate h]; decide
    · simp at h; rw [h]; decide
  have hstrip : pyStrip ((List.replicate 250 'a' ++ ['.']).take (250 + 1))
      = List.replicate 250 'a' ++ ['.'] := by
    rw [List.take_of_length_le (by omega)]
    exact pyStrip_eq_self_of_no_ws _ hnw
  have hloop : ∀ f, truncateLoop f (List.replicate 250 'a' ++ ['.']) = none := by
    intro f
    induction f with
    | zero => rfl
    | succ g ih =>
      rw [truncateLoop, hlen]
      rw [if_neg (by omega), lastTerminatorPos_replicate_dot]
      show truncateLoop g (pyStrip (List.take (250 + 1) (List.replicate 250 'a' ++ ['.']))) = none
      rw [hstrip]
      exact ih
  rw [truncate_text_intelligently, hlen]
  rw [if_neg (by omega), hloop fuel]
  rfl

theorem head?_dropWhile_false (p : Char → Bool) (l : List Char) (c : Char)
    (h : (l.dropWhile p).head? = some c) : p c = false := by
  have hh := List.head?_dropWhile_not p l
  rw [h] at hh
  exact hh

theorem dropWhile_length_le (p : Char → Bool) (l : List Char) :
    (l.dropWhile p).length ≤ l.length :=
  (List.dropWhile_suffix p).sublist.length_le

theorem pyStrip_head_not_ws (cs : List Char) (c : Char)
    (h : (pyStrip cs).head? = some c) : pyIsSpace c = false := by
  unfold pyStrip at h
  rw [List.head?_reverse] at h
  have hBne : (cs.dropWhile pyIsSpace).reverse.dropWhile pyIsSpace ≠ [] := by
    intro hnil
    rw [hnil] at h
    exact Option.noConfusion h
  obtain ⟨pre, hpre⟩ := List.dropWhile_suffix
    (l := (cs.dropWhile pyIsSpace).reverse) pyIsSpace
  have hlast : ((cs.dropWhile pyIsSpace).reverse.dropWhile pyIsSpace).getLast?
      = ((cs.dropWhile pyIsSpace).reverse).getLast? := by
    conv_rhs => rw [← hpre]
    rw [List.getLast?_append]
    cases hBL : ((cs.dropWhile pyIsSpace).reverse.dropWhile pyIsSpace).getLast? with
    | none =>
      exact absurd (List.getLast?_eq_none_iff.mp hBL) hBne
    | some x => rfl
  rw [hlast, List.getLast?_reverse] at h
  exact head?_dropWhile_false _ _ _ h

theorem pyStrip_getLast_not_ws (cs : List Char) (c : Char)
    (h : (pyStrip cs).getLast? = some c) : pyIsSpace c = false := by
  unfold pyStrip at h
  rw [List.getLast?_reverse] at h
  exact head?_dropWhile_false _ _ _ h

theorem pyStrip_subset (cs : List Char) : ∀ c ∈ pyStrip cs, c ∈ cs := by
  intro c hc
  unfold pyStrip at hc
  rw [List.mem_reverse] at hc
  have h1 := (List.dropWhile_suffix (l := (cs.dropWhile pyIsSpace).reverse)
    pyIsSpace).sublist.subset hc
  rw [List.mem_reverse] at h1
  exact (List.dropWhile_suffix pyIsSpace).sublist.subset h1

theorem pyStrip_chain (R : Char → Char → Prop) (hsymm : ∀ a b, R a b → R b a)
    (cs : List Char) (h : List.Chain' R cs) : List.Chain' R (pyStrip cs) := by
  unfold pyStrip
  have h1 : List.Chain' R (cs.dropWhile pyIsSpace) :=
    h.suffix (List.dropWhile_suffix pyIsSpace)
  have h2 : List.Chain' R ((cs.dropWhile pyIsSpace).reverse) :=
    List.chain'_reverse.mpr (h1.imp (fun a b hab => hsymm a b hab))
  have h3 : List.Chain' R ((cs.dropWhile pyIsSpace).reverse.dropWhile pyIsSpace) :=
    h2.suffix (List.dropWhile_suffix pyIsSpace)
  exact List.chain'_reverse.mpr (h3.imp (fun a b hab => hsymm a b hab))

theorem scanRep_eq_self (m : List Char → Option (List Char × List Char)) (fuel : Nat)
    (cs : List Char) (hnone : ∀ t, t <:+ cs → m t = none) :
    scanRep m fuel cs = cs := by
  induction fuel generalizing cs with
  | zero => rfl
  | succ g ih =>
    cases cs with
    | nil => rfl
    | cons c ct =>
      rw [scanRep, hnone (c :: ct) (List.suffix_refl _)]
      show c :: scanRep m g ct = c :: ct
      rw [ih ct (fun t ht => hnone t (ht.trans (List.suffix_cons c ct)))]

theorem scanRep_match_step (m : List Char → Option (List Char × List Char)) (fuel : Nat)
    (cs repl rest : List Char) (hne : cs ≠ []) (hm : m cs = some (repl, rest)) :
    scanRep m (fuel + 1) cs = repl ++ scanRep m fuel rest := by
  cases cs with
  | nil => exact absurd rfl hne
  | cons c ct => rw [scanRep, hm]

theorem scanRep_succ_of_le (m : List Char → Option (List Char × List Char))
    (hcons : ∀ u repl rest, m u = some (repl, rest) → rest.length < u.length)
    (fuel : Nat) (cs : List Char) (hfuel : cs.length ≤ fuel) :
    scanRep m (fuel + 1) cs = scanRep m fuel cs := by
  induction fuel generalizing cs with
  | zero =>
    have hnil : cs = [] := List.length_eq_zero.mp (Nat.le_zero.mp hfuel)
    rw [hnil]
    rfl
  | succ g ih =>
    cases cs with
    | nil => rfl
    | cons c ct =>
      cases hm : m (c :: ct) with
      | none =>
        rw [scanRep, hm, scanRep, hm]
        show c :: scanRep m (g + 1) ct = c :: scanRep m g ct
        rw [ih ct (by simpa using Nat.le_of_succ_le_succ hfuel)]
      | some pr =>
        obtain ⟨repl, rest⟩ := pr
        rw [scanRep, hm, scanRep, hm]
        show repl ++ scanRep m (g + 1) rest = repl ++ scanRep m g rest
        have hlt := hcons (c :: ct) repl rest hm
        have hrest : rest.length ≤ g := by
          have := List.length_cons c ct ▸ hfuel
          omega
        rw [ih rest hrest]

theorem scanRep_of_le (m : List Char → Option (List Char × List Char))
    (hcons : ∀ u repl rest, m u = some (repl, rest) → rest.length < u.length)
    (fuel : Nat) (cs : List Char) (hfuel : cs.length ≤ fuel) :
    scanRep m fuel cs = scanRep m cs.length cs := by
  induction fuel with
  | zero =>
    have hnil : cs = [] := List.length_eq_zero.mp (Nat.le_zero.mp hfuel)
    rw [hnil]
    rfl
  | succ g ih =>
    rcases Nat.lt_or_ge cs.length (g + 1) with h | h
    · have h2 : cs.length ≤ g := by omega
      rw [scanRep_succ_of_le m hcons g cs h2, ih h2]
    · have : cs.length = g + 1 := by omega
      rw [this]

theorem ciMatchHead_length (ps : List Char) : ∀ cs r : List Char,
    ciMatchHead ps cs = some r → cs.length = ps.length + r.length := by
  induction ps with
  | nil =>
    intro cs r h
    rw [ciMatchHead] at h
    cases h
    simp
  | cons p pt ih =>
    intro cs r h
    cases cs with
    | nil => exact absurd h (by rw [ciMatchHead]; exact fun hx => Option.noConfusion hx)
    | cons c ct =>
      rw [ciMatchHead] at h
      by_cases hc : c.toLower = p
      · rw [if_pos hc] at h
        have := ih ct r h
        simp [this]
        omega
      · rw [if_neg hc] at h
        exact absurd h (fun hx => Option.noConfusion hx)

theorem ciMatchHead_suffix (ps : List Char) : ∀ cs r : List Char,
    ciMatchHead ps cs = some r → r <:+ cs := by
  induction ps with
  | nil =>
    intro cs r h
    rw [ciMatchHead] at h
    cases h
    exact List.suffix_refl _
  | cons p pt ih =>
    intro cs r h
    cases cs with
    | nil => exact absurd h (by rw [ciMatchHead]; exact fun hx => Option.noConfusion hx)
    | cons c ct =>
      rw [ciMatchHead] at h
      by_cases hc : c.toLower = p
      · rw [if_pos hc] at h
        exact (ih ct r h).trans (List.suffix_cons c ct)
      · rw [if_neg hc] at h
        exact absurd h (fun hx => Option.noConfusion hx)

theorem ciOccurs_eq_false_iff (cs : List Char) :
    ciOccurs cs = false ↔ ∀ t, t <:+ cs → ciMatchHead trstdlyPat t = none := by
  induction cs with
  | nil =>
    constructor
    · intro _ t ht
      rw [List.suffix_nil.mp ht]
      rfl
    · intro _
      rfl
  | cons c ct ih =>
    rw [ciOccurs]
    constructor
    · intro h t ht
      rw [Bool.or_eq_false_iff] at h
      rcases List.suffix_cons_iff.mp ht with rfl | ht2
      · exact Option.not_isSome_iff_eq_none.mp (by simp [h.1])
      · exact ih.mp h.2 t ht2
    · intro h
      rw [Bool.or_eq_false_iff]
      constructor
      · rw [h (c :: ct) (List.suffix_refl _)]
        rfl
      · exact ih.mpr (fun t ht => h t (ht.trans (List.suffix_cons c ct)))

theorem scrubMatcher_some_occurs (cs : List Char) (pr : List Char × List Char)
    (h : scrubMatcher cs = some pr) :
    ∃ t, t <:+ cs ∧ (ciMatchHead trstdlyPat t).isSome = true := by
  refine ⟨cs, List.suffix_refl _, ?_⟩
  unfold scrubMatcher at h
  cases hm : ciMatchHead trstdlyPat cs with
  | none => rw [hm] at h; exact absurd h (fun hx => Option.noConfusion hx)
  | some r => rfl

theorem fourDigitsThenPat_occurs (u : List Char) (r : List Char)
    (h : fourDigitsThenPat u = some r) :
    ∃ t, t <:+ u ∧ (ciMatchHead trstdlyPat t).isSome = true := by
  unfold fourDigitsThenPat at h
  split at h
  · next d1 d2 d3 d4 rest =>
    split at h
    · refine ⟨rest.dropWhile pyIsSpace, ?_, by rw [h]; rfl⟩
      refine ((List.dropWhile_suffix pyIsSpace).trans ?_)
      refine (List.suffix_cons d4 rest).trans ?_
      refine (List.suffix_cons d3 _).trans ?_
      refine (List.suffix_cons d2 _).trans ?_
      exact List.suffix_cons d1 _
    · exact absurd h (fun hx => Option.noConfusion hx)
  · exact absurd h (fun hx => Option.noConfusion hx)

theorem atMatcher_some_occurs (cs : List Char) (pr : List Char × List Char)
    (h : atMatcher cs = some pr) :
    ∃ t, t <:+ cs ∧ (ciMatchHead trstdlyPat t).isSome = true := by
  unfold atMatcher at h
  split at h
  · next r2 heq =>
    cases hfd : fourDigitsThenPat (r2.dropWhile pyIsSpace) with
    | none => rw [hfd] at h; exact absurd h (fun hx => Option.noConfusion hx)
    | some rr =>
      obtain ⟨t, ht, hsome⟩ := fourDigitsThenPat_occurs _ _ hfd
      refine ⟨t, ?_, hsome⟩
      refine ht.trans ((List.dropWhile_suffix pyIsSpace).trans ?_)
      refine (List.suffix_cons '@' r2).trans ?_
      rw [← heq]
      exact List.dropWhile_suffix pyIsSpace
  · exact absurd h (fun hx => Option.noConfusion hx)

theorem copyrightMatcher_some_occurs (cs : List Char) (pr : List Char × List Char)
    (h : copyrightMatcher cs = some pr) :
    ∃ t, t <:+ cs ∧ (ciMatchHead trstdlyPat t).isSome = true := by
  unfold copyrightMatcher at h
  split at h
  · next r2 heq =>
    cases hfd : fourDigitsThenPat (r2.dropWhile pyIsSpace) with
    | none => rw [hfd] at h; exact absurd h (fun hx => Option.noConfusion hx)
    | some rr =>
      obtain ⟨t, ht, hsome⟩ := fourDigitsThenPat_occurs _ _ hfd
      refine ⟨t, ?_, hsome⟩
      refine ht.trans ((List.dropWhile_suffix pyIsSpace).trans ?_)
      refine (List.suffix_cons '©' r2).trans ?_
      refine (List.suffix_cons '¬' _).trans ?_
      rw [← heq]
      exact List.dropWhile_suffix pyIsSpace
  · exact absurd h (fun hx => Option.noConfusion hx)

theorem pass_eq_self_of_no_occurs (m : List Char → Option (List Char × List Char))
    (hm : ∀ u pr, m u = some pr → ∃ t, t <:+ u ∧ (ciMatchHead trstdlyPat t).isSome = true)
    (fuel : Nat) (cs : List Char) (hno : ciOccurs cs = false) :
    scanRep m fuel cs = cs := by
  apply scanRep_eq_self
  intro t ht
  cases hmt : m t with
  | none => rfl
  | some pr =>
    obtain ⟨t2, ht2, hsome⟩ := hm t pr hmt
    rw [(ciOccurs_eq_false_iff cs).mp hno t2 (ht2.trans ht)] at hsome
    exact absurd hsome (by simp)

theorem wsMatcher_none_of_head (c : Char) (ct : List Char) (hc : pyIsSpace c = false) :
    wsMatcher (c :: ct) = none := by
  simp [wsMatcher, hc]

theorem wsMatcher_some_of_head (c : Char) (ct : List Char) (hc : pyIsSpace c = true) :
    wsMatcher (c :: ct) = some ([' '], (c :: ct).dropWhile pyIsSpace) := by
  simp [wsMatcher, hc]

theorem scanRep_ws_mem (fuel : Nat) (cs : List Char) (hfuel : cs.length ≤ fuel) :
    ∀ c ∈ scanRep wsMatcher fuel cs, pyIsSpace c = true → c = ' ' := by
  induction fuel generalizing cs with
  | zero =>
    have hnil : cs = [] := List.length_eq_zero.mp (Nat.le_zero.mp hfuel)
    rw [hnil]
    intro c hc
    exact absurd hc (List.not_mem_nil c)
  | succ g ih =>
    cases cs with
    | nil =>
      intro c hc
      exact absurd hc (List.not_mem_nil c)
    | cons c ct =>
      by_cases hc : pyIsSpace c = true
      · rw [scanRep, wsMatcher_some_of_head c ct hc]
        show ∀ x ∈ ' ' :: scanRep wsMatcher g ((c :: ct).dropWhile pyIsSpace), _
        intro x hx hws
        rcases List.mem_cons.mp hx with rfl | hx2
        · rfl
        · have hlen : ((c :: ct).dropWhile pyIsSpace).length ≤ g := by
            rw [List.dropWhile_cons_of_pos hc]
            have := dropWhile_length_le pyIsSpace ct
            have := List.length_cons c ct ▸ hfuel
            omega
          exact ih _ hlen x hx2 hws
      · rw [scanRep, wsMatcher_none_of_head c ct (by simpa using hc)]
        show ∀ x ∈ c :: scanRep wsMatcher g ct, _
        intro x hx hws
        rcases List.mem_cons.mp hx with rfl | hx2
        · exact absurd hws hc
        · have hlen : ct.length ≤ g := by
            have := List.length_cons c ct ▸ hfuel
            omega
          exact ih ct hlen x hx2 hws

theorem scanRep_ws_head (fuel : Nat) (cs : List Char)
    (h : ∀ c, cs.head? = some c → pyIsSpace c = false) :
    ∀ c, (scanRep wsMatcher fuel cs).head? = some c → pyIsSpace c = false := by
  cases fuel with
  | zero => exact h
  | succ g =>
    cases cs with
    | nil => intro c hc; exact Option.noConfusion hc
    | cons c ct =>
      have hc : pyIsSpace c = false := h c rfl
      rw [scanRep, wsMatcher_none_of_head c ct hc]
      intro x hx
      rw [show (c :: scanRep wsMatcher g ct).head? = some c from rfl] at hx
      cases hx
      exact hc

theorem scanRep_ws_chain (fuel : Nat) (cs : List Char) (hfuel : cs.length ≤ fuel) :
    List.Chain' noWsPair (scanRep wsMatcher fuel cs) := by
  induction fuel generalizing cs with
  | zero =>
    have hnil : cs = [] := List.length_eq_zero.mp (Nat.le_zero.mp hfuel)
    rw [hnil]
    exact List.chain'_nil
  | succ g ih =>
    cases cs with
    | nil => exact List.chain'_nil
    | cons c ct =>
      by_cases hc : pyIsSpace c = true
      · rw [scanRep, wsMatcher_some_of_head c ct hc]
        show List.Chain' noWsPair (' ' :: scanRep wsMatcher g ((c :: ct).dropWhile pyIsSpace))
        rw [List.chain'_cons']
        have hlen : ((c :: ct).dropWhile pyIsSpace).length ≤ g := by
          rw [List.dropWhile_cons_of_pos hc]
          have := dropWhile_length_le pyIsSpace ct
          have := List.length_cons c ct ▸ hfuel
          omega
        refine ⟨?_, ih _ hlen⟩
        intro y hy
        have hhd : ∀ z, ((c :: ct).dropWhile pyIsSpace).head? = some z → pyIsSpace z = false :=
          fun z hz => head?_dropWhile_false _ _ _ hz
        have hyws := scanRep_ws_head g _ hhd y hy
        exact fun hpair => by rw [hyws] at hpair; exact Bool.noConfusion hpair.2
      · rw [scanRep, wsMatcher_none_of_head c ct (by simpa using hc)]
        show List.Chain' noWsPair (c :: scanRep wsMatcher g ct)
        rw [List.chain'_cons']
        have hlen : ct.length ≤ g := by
          have := List.length_cons c ct ▸ hfuel
          omega
        refine ⟨?_, ih ct hlen⟩
        intro y hy
        exact fun hpair => hc hpair.1

theorem scrubMatcher_consumes (u repl rest : List Char)
    (h : scrubMatcher u = some (repl, rest)) : rest.length < u.length := by
  unfold scrubMatcher at h
  cases hm : ciMatchHead trstdlyPat u with
  | none => rw [hm] at h; exact absurd h (fun hx => Option.noConfusion hx)
  | some r =>
    rw [hm] at h
    have hr : r = rest := by cases h; rfl
    have := ciMatchHead_length trstdlyPat u r hm
    rw [hr] at this
    rw [this]
    have : trstdlyPat.length = 11 := rfl
    omega

theorem ciMatchHead_self_append (t : List Char) :
    ciMatchHead trstdlyPat (trstdlyPat ++ t) = some t := rfl

/--
Claim C10, counterexample: removal of the leftmost occurrence can splice the
surrounding text into a fresh occurrence, which the single pass does not
remove, so the output still contains the site name.
-/
theorem c10_counterexample :
    remove_trstdly_references "trstdtrstdly.comly.com".data = "trstdly.com".data ∧
      ciOccurs (remove_trstdly_references "trstdtrstdly.comly.com".data) = true := by
  decide

/--
Claim C10, amended: for every non-empty content string, the scrub collapses
every whitespace run, newlines included, to a single space and strips the
edges, so no newline survives and the blank-line structure is not preserved;
occurrences of the site name are removed by one left-to-right
non-overlapping case-insensitive substitution pass (an occurrence at the
scan position is consumed, and an input without any occurrence is only
whitespace-collapsed), but an occurrence spliced together by a removal can
survive into the output.
-/
theorem c10_scrub_shape (content : List Char) (hne : content ≠ []) :
    (∀ c ∈ remove_trstdly_references content, pyIsSpace c = true → c = ' ') ∧
    List.Chain' noWsPair (remove_trstdly_references content) ∧
    (∀ c, (remove_trstdly_references content).head? = some c → pyIsSpace c = false) ∧
    (∀ c, (remove_trstdly_references content).getLast? = some c → pyIsSpace c = false) ∧
    '\n' ∉ remove_trstdly_references content ∧
    (ciOccurs content = false →
      remove_trstdly_references content = pyStrip (collapseWs content)) ∧
    (∀ t, scrubPass (trstdlyPat ++ t) = scrubPass t) := by
  have hrw : remove_trstdly_references content
      = pyStrip (collapseWs (scrubPass (scanRep copyrightMatcher
          (scanRep atMatcher content.length content).length
          (scanRep atMatcher content.length content)))) := by
    rw [remove_trstdly_references, if_neg hne]
  have hmem : ∀ c ∈ remove_trstdly_references content, pyIsSpace c = true → c = ' ' := by
    rw [hrw]
    intro c hc
    have hc2 := pyStrip_subset _ c hc
    exact scanRep_ws_mem _ _ (Nat.le_refl _) c hc2
  refine ⟨hmem, ?_, ?_, ?_, ?_, ?_, ?_⟩
  · rw [hrw]
    apply pyStrip_chain noWsPair (fun a b hab hba => hab ⟨hba.2, hba.1⟩)
    exact scanRep_ws_chain _ _ (Nat.le_refl _)
  · rw [hrw]
    exact fun c hc => pyStrip_head_not_ws _ c hc
  · rw [hrw]
    exact fun c hc => pyStrip_getLast_not_ws _ c hc
  · intro hmem2
    have := hmem '\n' hmem2 rfl
    exact absurd this (by decide)
  · intro hno
    rw [hrw]
    rw [pass_eq_self_of_no_occurs atMatcher atMatcher_some_occurs _ _ hno]
    rw [pass_eq_self_of_no_occurs copyrightMatcher copyrightMatcher_some_occurs _ _ hno]
    rw [show scrubPass content = content from
      pass_eq_self_of_no_occurs scrubMatcher scrubMatcher_some_occurs _ _ hno]
  · intro t
    have hm : scrubMatcher (trstdlyPat ++ t) = some ([], t) := by
      unfold scrubMatcher
      rw [ciMatchHead_self_append]
      rfl
    have hlen : (trstdlyPat ++ t).length = (t.length + 10) + 1 := by
      rw [List.length_append]
      show 11 + t.length = t.length + 10 + 1
      omega
    rw [scrubPass, hlen,
      scanRep_match_step scrubMatcher (t.length + 10) _ [] t (by simp [trstdlyPat]) hm,
      List.nil_append, scrubPass,
      scanRep_of_le scrubMatcher scrubMatcher_consumes (t.length + 10) t (by omega)]

/-- Witness for the C10 amended theorem at a concrete input. -/
theorem c10_scrub_shape_witness :
    '\n' ∉ remove_trstdly_references "a\n\nb".data ∧
      remove_trstdly_references "a\n\nb".data = pyStrip (collapseWs "a\n\nb".data) :=
  ⟨(c10_scrub_shape "a\n\nb".data (by decide)).2.2.2.2.1,
   (c10_scrub_shape "a\n\nb".data (by decide)).2.2.2.2.2.1 (by decide)⟩

theorem startsWithLit_iff (l p : List Char) : startsWithLit l p = true ↔ p <+: l := by
  unfold startsWithLit
  exact List.isPrefixOf_iff_prefix

theorem startsWithLit_of_isPrefixOf (l p q : List Char) (hq : startsWithLit l q = true)
    (hpq : p.isPrefixOf q = true) : startsWithLit l p = true := by
  rw [startsWithLit_iff] at hq ⊢
  exact (List.isPrefixOf_iff_prefix.mp hpq).trans hq

theorem startsWithLit_incompat (l p q : List Char) (hp : startsWithLit l p = true)
    (hq : startsWithLit l q = true) (hlen : p.length ≤ q.length) :
    p.isPrefixOf q = true := by
  rw [startsWithLit_iff] at hp hq
  exact List.isPrefixOf_iff_prefix.mpr (List.prefix_of_prefix_length_le hp hq hlen)

theorem capCond_elim (l : List Char) (h : capCond l = true) :
    startsWithLit l "<figcaption>".data = true ∨ startsWithLit l "<h2>".data = true ∨
    startsWithLit l "<span></span>".data = true ∨ startsWithLit l "<iframe".data = true ∨
    startsWithLit l "<p>".data = true := by
  unfold capCond startsWithAny at h
  rw [Bool.or_eq_true] at h
  rcases h with h | h
  · simp only [List.any_cons, List.any_nil, Bool.or_eq_true, Bool.or_eq_false_iff] at h
    tauto
  · rw [Bool.and_eq_true] at h
    exact Or.inr (Or.inr (Or.inr (Or.inr h.1)))

theorem capCond_not_img (l : List Char) (h : capCond l = true) :
    startsWithLit l "<img ".data = false := by
  cases himg : startsWithLit l "<img ".data
  · rfl
  · exfalso
    rcases capCond_elim l h with hc | hc | hc | hc | hc
    · have := startsWithLit_incompat l "<img ".data "<figcaption>".data himg hc (by decide)
      exact absurd this (by decide)
    · have := startsWithLit_incompat l "<h2>".data "<img ".data hc himg (by decide)
      exact absurd this (by decide)
    · have := startsWithLit_incompat l "<img ".data "<span></span>".data himg hc (by decide)
      exact absurd this (by decide)
    · have := startsWithLit_incompat l "<img ".data "<iframe".data himg hc (by decide)
      exact absurd this (by decide)
    · have := startsWithLit_incompat l "<p>".data "<img ".data hc himg (by decide)
      exact absurd this (by decide)

theorem capCond_not_li (l : List Char) (h : capCond l = true) :
    startsWithLit l "<li".data = false := by
  cases hli : startsWithLit l "<li".data
  · rfl
  · exfalso
    rcases capCond_elim l h with hc | hc | hc | hc | hc
    · have := startsWithLit_incompat l "<li".data "<figcaption>".data hli hc (by decide)
      exact absurd this (by decide)
    · have := startsWithLit_incompat l "<li".data "<h2>".data hli hc (by decide)
      exact absurd this (by decide)
    · have := startsWithLit_incompat l "<li".data "<span></span>".data hli hc (by decide)
      exact absurd this (by decide)
    · have := startsWithLit_incompat l "<li".data "<iframe".data hli hc (by decide)
      exact absurd this (by decide)
    · have := startsWithLit_incompat l "<li".data "<p>".data hli hc (by decide)
      exact absurd this (by decide)

theorem outerCond_of_capCond (l : List Char) (h : capCond l = true) :
    outerCond l = true := by
  unfold capCond startsWithAny at h
  unfold outerCond startsWithAny blankAfterSet
  rw [Bool.or_eq_true] at h ⊢
  rcases h with h | h
  · left
    simp only [List.any_cons, List.any_nil, Bool.or_eq_true] at h ⊢
    tauto
  · right
    exact h

theorem capCond_of_outer (l : List Char) (ho : outerCond l = true)
    (himg : startsWithLit l "<img ".data = false) : capCond l = true := by
  unfold outerCond startsWithAny blankAfterSet at ho
  unfold capCond startsWithAny
  rw [Bool.or_eq_true] at ho ⊢
  rcases ho with h | h
  · left
    simp only [List.any_cons, List.any_nil, Bool.or_eq_true] at h ⊢
    rcases h with h | h
    · rw [h] at himg
      exact Bool.noConfusion himg
    · tauto
  · right
    exact h

theorem blankInsertion_cases (l : List Char) (rest : List (List Char)) :
    blankInsertion l rest = [] ∨ blankInsertion l rest = [[]] := by
  unfold blankInsertion
  split
  · split
    · exact Or.inr rfl
    · exact Or.inl rfl
  · split
    · split
      · exact Or.inl rfl
      · split
        · exact Or.inr rfl
        · exact Or.inl rfl
    · exact Or.inl rfl

theorem blankInsertion_of_capCond (l : List Char) (rest : List (List Char))
    (h : capCond l = true) : blankInsertion l rest = [[]] := by
  unfold blankInsertion
  rw [if_pos (outerCond_of_capCond l h), if_pos (by rw [capCond_not_img l h]; rfl)]

theorem blankInsertion_blank_imp (l : List Char) (rest : List (List Char))
    (h : blankInsertion l rest = [[]]) :
    startsWithLit l "<img ".data = false ∧ startsWithLit l "<li".data = false := by
  unfold blankInsertion at h
  by_cases ho : outerCond l = true
  · rw [if_pos ho] at h
    by_cases himg : startsWithLit l "<img ".data = true
    · rw [himg] at h
      simp at h
    · have himg2 : startsWithLit l "<img ".data = false := by
        cases hx : startsWithLit l "<img ".data
        · rfl
        · exact absurd hx himg
      exact ⟨himg2, capCond_not_li l (capCond_of_outer l ho himg2)⟩
  · rw [if_neg ho] at h
    by_cases hp : plainTextCond l = true
    · rw [if_pos hp] at h
      have hlt : startsWithLit l "<".data = false := by
        unfold plainTextCond at hp
        rw [Bool.and_eq_true] at hp
        cases hx : startsWithLit l "<".data
        · rfl
        · rw [hx] at hp
          simp at hp
      constructor
      · cases hx : startsWithLit l "<img ".data
        · rfl
        · have := startsWithLit_of_isPrefixOf l "<".data "<img ".data hx (by decide)
          rw [this] at hlt
          exact Bool.noConfusion hlt
      · cases hx : startsWithLit l "<li".data
        · rfl
        · have := startsWithLit_of_isPrefixOf l "<".data "<li".data hx (by decide)
          rw [this] at hlt
          exact Bool.noConfusion hlt
    · rw [if_neg hp] at h
      exact absurd h (by simp)

theorem processLines_head_ne (M : List (List Char)) :
    ∀ h, (processLines M).head? = some h → h ≠ [] := by
  induction M with
  | nil =>
    intro h hh
    exact Option.noConfusion hh
  | cons raw rest ih =>
    intro h hh
    simp only [processLines] at hh
    by_cases hl : pyStrip raw = []
    · rw [if_pos hl] at hh
      exact ih h hh
    · rw [if_neg hl] at hh
      rw [List.head?_cons] at hh
      cases hh
      exact hl

theorem processLines_mem (M : List (List Char)) :
    ∀ l ∈ processLines M, l = [] ∨ ∃ raw, raw ∈ M ∧ l = pyStrip raw ∧ l ≠ [] := by
  induction M with
  | nil =>
    intro l hl
    exact absurd hl (List.not_mem_nil l)
  | cons raw rest ih =>
    intro l hl
    simp only [processLines] at hl
    by_cases hstrip : pyStrip raw = []
    · rw [if_pos hstrip] at hl
      rcases ih l hl with h | ⟨r, hr, he, hne⟩
      · exact Or.inl h
      · exact Or.inr ⟨r, List.mem_cons_of_mem raw hr, he, hne⟩
    · rw [if_neg hstrip] at hl
      rcases List.mem_cons.mp hl with rfl | hl2
      · exact Or.inr ⟨raw, List.mem_cons_self raw rest, rfl, hstrip⟩
      · rcases List.mem_append.mp hl2 with hb | hr
        · rcases blankInsertion_cases (pyStrip raw) rest with h0 | h0 <;> rw [h0] at hb
          · exact absurd hb (List.not_mem_nil l)
          · rw [List.mem_singleton] at hb
            exact Or.inl hb
        · rcases ih l hr with h | ⟨r, hrr, he, hne⟩
          · exact Or.inl h
          · exact Or.inr ⟨r, List.mem_cons_of_mem raw hrr, he, hne⟩

theorem processLines_chain (M : List (List Char)) :
    List.Chain' lineRel (processLines M) := by
  induction M with
  | nil => exact List.chain'_nil
  | cons raw rest ih =>
    simp only [processLines]
    by_cases hl : pyStrip raw = []
    · rw [if_pos hl]
      exact ih
    · rw [if_neg hl]
      rcases blankInsertion_cases (pyStrip raw) rest with hb | hb
      · rw [hb, List.nil_append]
        rw [List.chain'_cons']
        refine ⟨?_, ih⟩
        intro y hy
        constructor
        · intro hcap
          rw [blankInsertion_of_capCond (pyStrip raw) rest hcap] at hb
          exact absurd hb (by simp)
        · intro _
          exact processLines_head_ne rest y hy
      · rw [hb]
        show List.Chain' lineRel (pyStrip raw :: [] :: processLines rest)
        rw [List.chain'_cons']
        obtain ⟨himg, hli⟩ := blankInsertion_blank_imp (pyStrip raw) rest hb
        constructor
        · intro y hy
          rw [List.head?_cons] at hy
          cases hy
          constructor
          · intro _
            rfl
          · intro habs
            rcases habs with h0 | h0 | h0
            · exact absurd h0 hl
            · rw [himg] at h0
              exact absurd h0 (by simp)
            · rw [hli] at h0
              exact absurd h0 (by simp)
        · rw [List.chain'_cons']
          refine ⟨?_, ih⟩
          intro y hy
          constructor
          · intro hcap
            exact absurd hcap (by decide)
          · intro _
            exact processLines_head_ne rest y hy

theorem splitLines_ne_nil (cs : List Char) : splitLines cs ≠ [] := by
  induction cs with
  | nil => exact fun h => List.noConfusion h
  | cons c rest ih =>
    rw [splitLines]
    by_cases hc : c = '\n'
    · rw [if_pos hc]
      exact fun h => List.noConfusion h
    · rw [if_neg hc]
      cases hsp : splitLines rest with
      | nil => exact absurd hsp ih
      | cons l ls => exact fun h => List.noConfusion h

theorem splitLines_no_newline (cs : List Char) : ∀ l ∈ splitLines cs, '\n' ∉ l := by
  induction cs with
  | nil =>
    intro l hl
    rw [show splitLines [] = [[]] from rfl, List.mem_singleton] at hl
    rw [hl]
    exact List.not_mem_nil '\n'
  | cons c rest ih =>
    intro l hl
    rw [splitLines] at hl
    by_cases hc : c = '\n'
    · rw [if_pos hc] at hl
      rcases List.mem_cons.mp hl with rfl | h2
      · exact List.not_mem_nil '\n'
      · exact ih l h2
    · rw [if_neg hc] at hl
      cases hsp : splitLines rest with
      | nil => exact absurd hsp (splitLines_ne_nil rest)
      | cons m ms =>
        rw [hsp] at hl
        rcases List.mem_cons.mp hl with rfl | h2
        · intro hmem
          rcases List.mem_cons.mp hmem with heq | h3
          · exact hc heq.symm
          · exact ih m (by rw [hsp]; exact List.mem_cons_self m ms) h3
        · exact ih l (by rw [hsp]; exact List.mem_cons_of_mem m h2)

theorem splitLines_append_no_newline (e : List Char) (he : '\n' ∉ e) (cs : List Char)
    (l : List Char) (ls : List (List Char)) (hsp : splitLines cs = l :: ls) :
    splitLines (e ++ cs) = (e ++ l) :: ls := by
  induction e with
  | nil => simpa using hsp
  | cons c e2 ih =>
    have hc : ¬ c = '\n' := by
      intro h
      exact he (by rw [h]; exact List.mem_cons_self '\n' e2)
    rw [List.cons_append, splitLines, if_neg hc,
      ih (fun hm => he (List.mem_cons_of_mem c hm))]
    rfl

theorem splitLines_joinLines (M : List (List Char)) (hM : M ≠ [])
    (hnl : ∀ l ∈ M, '\n' ∉ l) : splitLines (joinLines M) = M := by
  induction M with
  | nil => exact absurd rfl hM
  | cons e M2 ih =>
    cases M2 with
    | nil =>
      show splitLines (joinLines [e]) = [e]
      have h2 := splitLines_append_no_newline e (hnl e (List.mem_cons_self e []))
        [] [] [] rfl
      rw [show joinLines [e] = e from rfl]
      simpa using h2
    | cons f M3 =>
      rw [show joinLines (e :: f :: M3) = e ++ '\n' :: joinLines (f :: M3) from rfl]
      have hrec : splitLines (joinLines (f :: M3)) = f :: M3 :=
        ih (by simp) (fun l hl => hnl l (List.mem_cons_of_mem e hl))
      have hsplit : splitLines ('\n' :: joinLines (f :: M3)) = [] :: f :: M3 := by
        rw [splitLines, if_pos rfl, hrec]
      have h3 := splitLines_append_no_newline e (hnl e (List.mem_cons_self e _))
        _ [] (f :: M3) hsplit
      simpa using h3

theorem suffix_append_split {t a b : List Char} (h : t <:+ a ++ b) :
    t <:+ b ∨ ∃ a1, a1 <:+ a ∧ a1 ≠ [] ∧ t = a1 ++ b := by
  induction a with
  | nil => exact Or.inl (by simpa using h)
  | cons c a2 ih =>
    rw [List.cons_append] at h
    rcases List.suffix_cons_iff.mp h with rfl | h2
    · exact Or.inr ⟨c :: a2, List.suffix_refl _, by simp, by simp⟩
    · rcases ih h2 with h3 | ⟨a1, ha1, hne, rfl⟩
      · exact Or.inl h3
      · exact Or.inr ⟨a1, ha1.trans (List.suffix_cons c a2), hne, rfl⟩

theorem joinLines_cons_head (g : List Char) (hg : g ≠ []) (M : List (List Char)) :
    ∃ h t2, joinLines (g :: M) = h :: t2 ∧ g.head? = some h := by
  cases g with
  | nil => exact absurd rfl hg
  | cons c g2 =>
    cases M with
    | nil => exact ⟨c, g2, rfl, rfl⟩
    | cons f M2 => exact ⟨c, g2 ++ '\n' :: joinLines (f :: M2), rfl, rfl⟩

theorem joinLines_append_blank (M : List (List Char)) (hM : M ≠ []) :
    joinLines (M ++ [[]]) = joinLines M ++ ['\n'] := by
  induction M with
  | nil => exact absurd rfl hM
  | cons e M2 ih =>
    cases M2 with
    | nil => rfl
    | cons f M3 =>
      show e ++ '\n' :: joinLines ((f :: M3) ++ [[]])
        = (e ++ '\n' :: joinLines (f :: M3)) ++ ['\n']
      rw [ih (by simp)]
      simp

theorem joinLines_getLast (M : List (List Char)) (g : List Char) (hlast : M.getLast? = some g)
    (hg : g ≠ []) : (joinLines M).getLast? = g.getLast? := by
  induction M with
  | nil => exact Option.noConfusion hlast
  | cons e M2 ih =>
    cases M2 with
    | nil =>
      rw [show ([e].getLast? : Option (List Char)) = some e from rfl] at hlast
      cases hlast
      rfl
    | cons f M3 =>
      have hlast2 : (f :: M3).getLast? = some g := by
        rw [List.getLast?_cons_cons] at hlast
        exact hlast
      have hx := ih hlast2
      show (e ++ '\n' :: joinLines (f :: M3)).getLast? = g.getLast?
      rw [List.getLast?_append]
      obtain ⟨c2, hc2⟩ : ∃ c2, g.getLast? = some c2 := by
        cases hgl : g.getLast? with
        | none => exact absurd (List.getLast?_eq_none_iff.mp hgl) hg
        | some x => exact ⟨x, rfl⟩
      have hj : ('\n' :: joinLines (f :: M3)).getLast? = some c2 := by
        cases hjoin : joinLines (f :: M3) with
        | nil =>
          rw [hjoin] at hx
          rw [hc2] at hx
          exact Option.noConfusion hx
        | cons d ds =>
          rw [List.getLast?_cons_cons]
          rw [← hjoin, hx, hc2]
      rw [hj, hc2]
      rfl

theorem mem_of_getLast?_eq {α : Type} (l : List α) (a : α) (h : l.getLast? = some a) :
    a ∈ l := by
  have hd := List.dropLast_append_getLast? a (Option.mem_def.mpr h)
  rw [← hd]
  exact List.mem_append.mpr (Or.inr (List.mem_singleton.mpr rfl))

theorem collapse3Matcher_not_newline (c : Char) (t2 : List Char) (hc : ¬ c = '\n') :
    collapse3Matcher (c :: t2) = none := by
  rw [collapse3Matcher, if_neg hc]

theorem collapse3Matcher_newline_low (rest : List Char)
    (hcount : (('\n' :: rest).takeWhile pyIsSpace).count '\n' ≤ 2) :
    collapse3Matcher ('\n' :: rest) = none := by
  have hng : ¬ 3 ≤ (('\n' :: rest).takeWhile pyIsSpace).count '\n' := by omega
  simp only [collapse3Matcher, if_pos rfl]
  rw [if_neg hng]
  simp

theorem takeWhile_ws_join_nonblank (g : List Char) (hg : g ≠ [])
    (hhead : ∀ hh, g.head? = some hh → pyIsSpace hh = false) (M : List (List Char)) :
    (joinLines (g :: M)).takeWhile pyIsSpace = [] := by
  obtain ⟨h, t2, hj, hh⟩ := joinLines_cons_head g hg M
  rw [hj, List.takeWhile_cons_of_neg]
  rw [hhead h hh]
  exact Bool.false_ne_true

theorem collapse3Matcher_none_on_join (L : List (List Char)) :
    (∀ l ∈ L, l = [] ∨ ((∀ hh, l.head? = some hh → pyIsSpace hh = false) ∧ '\n' ∉ l)) →
    List.Chain' (fun a b => a = [] → b ≠ []) L →
    ∀ t, t <:+ joinLines L → collapse3Matcher t = none := by
  induction L with
  | nil =>
    intro _ _ t ht
    rw [show joinLines [] = ([] : List Char) from rfl] at ht
    rw [List.suffix_nil.mp ht]
    rfl
  | cons e L2 ih =>
    intro hmem hchain t ht
    cases L2 with
    | nil =>
      rw [show joinLines [e] = e from rfl] at ht
      cases t with
      | nil => rfl
      | cons c t2 =>
        have hce : c ∈ e := ht.sublist.subset (List.mem_cons_self c t2)
        have hene : e ≠ [] := by
          intro h0
          rw [h0] at hce
          exact List.not_mem_nil c hce
        rcases hmem e (List.mem_cons_self e []) with h | ⟨_, hnl⟩
        · exact absurd h hene
        · exact collapse3Matcher_not_newline c t2 (fun h0 => hnl (h0 ▸ hce))
    | cons f L3 =>
      rw [show joinLines (e :: f :: L3) = e ++ '\n' :: joinLines (f :: L3) from rfl] at ht
      rcases suffix_append_split ht with h2 | ⟨a1, ha1, hane, rfl⟩
      · rcases List.suffix_cons_iff.mp h2 with rfl | h3
        · apply collapse3Matcher_newline_low
          rw [List.takeWhile_cons_of_pos (by decide)]
          by_cases hf : f = []
          · subst hf
            cases L3 with
            | nil =>
              rw [show joinLines [([] : List Char)] = ([] : List Char) from rfl]
              decide
            | cons g L4 =>
              have hgne : g ≠ [] := by
                have hch2 := (List.chain'_cons.mp hchain.tail).1
                exact hch2 rfl
              rcases hmem g (List.mem_cons_of_mem e (List.mem_cons_of_mem []
                (List.mem_cons_self g L4))) with h | ⟨hgHead, _⟩
              · exact absurd h hgne
              · rw [show joinLines (([] : List Char) :: g :: L4)
                    = '\n' :: joinLines (g :: L4) from rfl]
                rw [List.takeWhile_cons_of_pos (by decide)]
                rw [takeWhile_ws_join_nonblank g hgne hgHead L4]
                decide
          · rcases hmem f (List.mem_cons_of_mem e (List.mem_cons_self f L3))
              with h | ⟨hfHead, _⟩
            · exact absurd h hf
            · rw [takeWhile_ws_join_nonblank f hf hfHead L3]
              decide
        · exact ih (fun l hl => hmem l (List.mem_cons_of_mem e hl)) hchain.tail t h3
      · cases a1 with
        | nil => exact absurd rfl hane
        | cons c a2 =>
          have hce : c ∈ e := ha1.sublist.subset (List.mem_cons_self c a2)
          have hene : e ≠ [] := by
            intro h0
            rw [h0] at hce
            exact List.not_mem_nil c hce
          rcases hmem e (List.mem_cons_self e _) with h | ⟨_, hnl⟩
          · exact absurd h hene
          · rw [List.cons_append]
            exact collapse3Matcher_not_newline c _ (fun h0 => hnl (h0 ▸ hce))

theorem stripEnd_no_op (X : List Char) (c : Char) (hlast : X.getLast? = some c)
    (hc : pyIsSpace c = false) : (X.reverse.dropWhile pyIsSpace).reverse = X := by
  rw [dropWhile_eq_self_of_head _ X.reverse (fun d hd => by
    rw [List.head?_reverse] at hd
    have hdc := hd.symm.trans hlast
    injection hdc with hdc2
    rw [← hdc2] at hc
    exact hc), List.reverse_reverse]

theorem stripEnd_drop_newline (X : List Char) (c : Char) (hlast : X.getLast? = some c)
    (hc : pyIsSpace c = false) :
    ((X ++ ['\n']).reverse.dropWhile pyIsSpace).reverse = X := by
  rw [List.reverse_append]
  show ((('\n' :: X.reverse).dropWhile pyIsSpace)).reverse = X
  rw [List.dropWhile_cons_of_pos (by decide)]
  rw [dropWhile_eq_self_of_head _ X.reverse (fun d hd => by
    rw [List.head?_reverse] at hd
    have hdc := hd.symm.trans hlast
    injection hdc with hdc2
    rw [← hdc2] at hc
    exact hc), List.reverse_reverse]

theorem pyStrip_joinLines (L : List (List Char))
    (hhead : ∀ hh, L.head? = some hh → hh ≠ [])
    (hmem : ∀ l ∈ L, l = [] ∨ ((∀ hh, l.head? = some hh → pyIsSpace hh = false) ∧
      (∀ hh, l.getLast? = some hh → pyIsSpace hh = false) ∧ '\n' ∉ l))
    (hchain : List.Chain' (fun a b => a = [] → b ≠ []) L) :
    pyStrip (joinLines L) = joinLines (dropTrailingBlank L) := by
  cases L with
  | nil => rfl
  | cons e L2 =>
    have hene : e ≠ [] := hhead e rfl
    obtain he | ⟨heHead, heLast, heNl⟩ := hmem e (List.mem_cons_self e _)
    · exact absurd he hene
    obtain ⟨h0, t0, hj, hh0⟩ := joinLines_cons_head e hene L2
    have hfront : (joinLines (e :: L2)).dropWhile pyIsSpace = joinLines (e :: L2) := by
      rw [hj]
      exact dropWhile_eq_self_of_head _ _ (fun c hc => by
        rw [List.head?_cons] at hc
        cases hc
        exact heHead h0 hh0)
    have hkey : pyStrip (joinLines (e :: L2))
        = ((joinLines (e :: L2)).reverse.dropWhile pyIsSpace).reverse := by
      unfold pyStrip
      rw [hfront]
    obtain ⟨glast, hglast⟩ : ∃ g, (e :: L2).getLast? = some g := by
      cases hgl : (e :: L2).getLast? with
      | none => exact absurd (List.getLast?_eq_none_iff.mp hgl) (by simp)
      | some x => exact ⟨x, rfl⟩
    by_cases hgb : glast = []
    · subst hgb
      have hdecomp : (e :: L2).dropLast ++ [[]] = e :: L2 :=
        List.dropLast_append_getLast? [] (Option.mem_def.mpr hglast)
      have hMne : (e :: L2).dropLast ≠ [] := by
        intro h0m
        rw [h0m, List.nil_append] at hdecomp
        have hcons := hdecomp.symm
        injection hcons with h1 _
        exact hene h1
      have hjoin2 : joinLines (e :: L2) = joinLines ((e :: L2).dropLast) ++ ['\n'] := by
        conv_lhs => rw [← hdecomp]
        exact joinLines_append_blank _ hMne
      obtain ⟨g2, hg2⟩ : ∃ g2, (e :: L2).dropLast.getLast? = some g2 := by
        cases hgl : (e :: L2).dropLast.getLast? with
        | none => exact absurd (List.getLast?_eq_none_iff.mp hgl) hMne
        | some x => exact ⟨x, rfl⟩
      have hg2ne : g2 ≠ [] := by
        have hch2 : List.Chain' (fun a b => a = [] → b ≠ [])
            ((e :: L2).dropLast ++ [[]]) := by
          rw [hdecomp]
          exact hchain
        have happ := (List.chain'_append.mp hch2).2.2 g2 (Option.mem_def.mpr hg2)
          [] rfl
        intro h0
        exact happ h0 rfl
      have hg2mem : g2 ∈ e :: L2 := by
        rw [← hdecomp]
        exact List.mem_append.mpr (Or.inl (mem_of_getLast?_eq _ g2 hg2))
      obtain hg2b | ⟨_, hg2Last, _⟩ := hmem g2 hg2mem
      · exact absurd hg2b hg2ne
      obtain ⟨c2, hc2⟩ : ∃ c2, g2.getLast? = some c2 := by
        cases hgl : g2.getLast? with
        | none => exact absurd (List.getLast?_eq_none_iff.mp hgl) hg2ne
        | some x => exact ⟨x, rfl⟩
      have hjoinLast : (joinLines ((e :: L2).dropLast)).getLast? = some c2 := by
        rw [joinLines_getLast _ g2 hg2 hg2ne, hc2]
      rw [hkey, hjoin2, stripEnd_drop_newline _ c2 hjoinLast (hg2Last c2 hc2)]
      rw [dropTrailingBlank, if_pos (by rw [hglast])]
    · have hgmem : glast ∈ e :: L2 := mem_of_getLast?_eq _ glast hglast
      obtain hgb2 | ⟨_, hgLast, _⟩ := hmem glast hgmem
      · exact absurd hgb2 hgb
      obtain ⟨c2, hc2⟩ : ∃ c2, glast.getLast? = some c2 := by
        cases hgl : glast.getLast? with
        | none => exact absurd (List.getLast?_eq_none_iff.mp hgl) hgb
        | some x => exact ⟨x, rfl⟩
      have hjoinLast : (joinLines (e :: L2)).getLast? = some c2 := by
        rw [joinLines_getLast _ glast hglast hgb, hc2]
      rw [hkey, stripEnd_no_op _ c2 hjoinLast (hgLast c2 hc2)]
      rw [dropTrailingBlank, if_neg (by
        rw [hglast]
        intro hx
        injection hx with hx2
        exact hgb hx2)]

theorem pipeline_lines_chain (c4 : List Char) :
    List.Chain' lineRel (splitLines (pyStrip (scanRep collapse3Matcher
      (joinLines (processLines (splitLines c4))).length
      (joinLines (processLines (splitLines c4)))))) := by
  have hmemF : ∀ l ∈ processLines (splitLines c4),
      l = [] ∨ ((∀ hh, l.head? = some hh → pyIsSpace hh = false) ∧
        (∀ hh, l.getLast? = some hh → pyIsSpace hh = false) ∧ '\n' ∉ l) := by
    intro l hl
    rcases processLines_mem (splitLines c4) l hl with h | ⟨raw, hraw, heq, hne⟩
    · exact Or.inl h
    · right
      refine ⟨?_, ?_, ?_⟩
      · intro hh hhh
        exact pyStrip_head_not_ws raw hh (by rw [← heq]; exact hhh)
      · intro hh hhh
        exact pyStrip_getLast_not_ws raw hh (by rw [← heq]; exact hhh)
      · rw [heq]
        intro hmemnl
        exact splitLines_no_newline c4 raw hraw (pyStrip_subset raw '\n' hmemnl)
  have hchainL : List.Chain' lineRel (processLines (splitLines c4)) :=
    processLines_chain (splitLines c4)
  have hchain0 : List.Chain' (fun a b => a = [] → b ≠ []) (processLines (splitLines c4)) :=
    hchainL.imp (fun a b hab h0 => hab.2 (Or.inl h0))
  have hheadL : ∀ hh, (processLines (splitLines c4)).head? = some hh → hh ≠ [] :=
    processLines_head_ne (splitLines c4)
  have hcollapse : scanRep collapse3Matcher
      (joinLines (processLines (splitLines c4))).length
      (joinLines (processLines (splitLines c4)))
      = joinLines (processLines (splitLines c4)) :=
    scanRep_eq_self _ _ _ (collapse3Matcher_none_on_join (processLines (splitLines c4))
      (fun l hl => (hmemF l hl).imp id (fun hx => ⟨hx.1, hx.2.2⟩)) hchain0)
  rw [hcollapse, pyStrip_joinLines (processLines (splitLines c4)) hheadL hmemF hchain0]
  by_cases hDT : dropTrailingBlank (processLines (splitLines c4)) = []
  · rw [hDT]
    exact List.chain'_singleton []
  · rw [splitLines_joinLines (dropTrailingBlank (processLines (splitLines c4))) hDT ?hnl]
    · have hpre : dropTrailingBlank (processLines (splitLines c4))
          <+: processLines (splitLines c4) := by
        rw [dropTrailingBlank]
        split
        · exact List.dropLast_prefix _
        · exact List.prefix_refl _
      exact hchainL.prefix hpre
    case hnl =>
      intro l hl
      have hlL : l ∈ processLines (splitLines c4) := by
        rw [dropTrailingBlank] at hl
        by_cases hsplit : (processLines (splitLines c4)).getLast? = some []
        · rw [if_pos hsplit] at hl
          exact (List.dropLast_sublist _).subset hl
        · rw [if_neg hsplit] at hl
          exact hl
      rcases hmemF l hlL with h | ⟨_, _, h3⟩
      · rw [h]
        exact List.not_mem_nil '\n'
      · exact h3

theorem postLines_chain (content : List Char) : List.Chain' lineRel (postLines content) := by
  unfold postLines postProcessContent
  exact pipeline_lines_chain _

/--
Claim C5, counterexample: in the post-processed output, an image line that is
immediately followed by a paragraph line has no blank line after it, although
the claim says the blank line after an image is only omitted before another
image line.
-/
theorem c5_counterexample :
    startsWithLit ((postLines "<img src=\"a\"/>\n<p>x</p>".data).getD 0 [])
      "<img ".data = true ∧
    (postLines "<img src=\"a\"/>\n<p>x</p>".data).getD 1 [] = "<p>x</p>".data ∧
    (postLines "<img src=\"a\"/>\n<p>x</p>".data).getD 1 [] ≠ [] ∧
    startsWithLit ((postLines "<img src=\"a\"/>\n<p>x</p>".data).getD 1 [])
      "<img ".data = false := by
  decide

/--
Claim C5, amended: in the post-processed output, a blank line follows every
caption, level-2 heading, empty-span, iframe, and paragraph line that is not
the last line; no blank line ever follows an image line (for every following
line, not only when it is another image); consecutive list-item lines get no
blank line between them; and blank lines never stack: the line after a blank
line is non-blank, so the final output holds no run of two or more blank
lines.
-/
theorem c5_serialized_blank_lines (content : List Char) (i : Nat)
    (hi : i + 1 < (postLines content).length) :
    (capCond ((postLines content).getD i []) = true →
      (postLines content).getD (i + 1) [] = []) ∧
    (startsWithLit ((postLines content).getD i []) "<img ".data = true →
      (postLines content).getD (i + 1) [] ≠ []) ∧
    (startsWithLit ((postLines content).getD i []) "<li".data = true →
      (postLines content).getD (i + 1) [] ≠ []) ∧
    ((postLines content).getD i [] = [] → (postLines content).getD (i + 1) [] ≠ []) := by
  have hchain := postLines_chain content
  rw [List.chain'_iff_get] at hchain
  have h := hchain i (by omega)
  rw [List.getD_eq_get _ _ (by omega : i < (postLines content).length),
    List.getD_eq_get _ _ (by omega : i + 1 < (postLines content).length)]
  exact ⟨h.1, fun himg => h.2 (Or.inr (Or.inl himg)),
    fun hli => h.2 (Or.inr (Or.inr hli)), fun hb => h.2 (Or.inl hb)⟩

/-- Witness for the C5 amended theorem at a concrete input. -/
theorem c5_serialized_blank_lines_witness :
    (postLines "<p>x</p>\n<p>y</p>".data).getD 1 [] = [] :=
  (c5_serialized_blank_lines "<p>x</p>\n<p>y</p>".data 0 (by decide)).1 (by decide)

end ScrapeTrsly
